import Mathlib

/-!
Verification development for the QsPlot data-preparation pipeline.

Shallow embedding of the pure computational core of the repository:
`DataProcessor` (cleaning, reduction bookkeeping, normalization),
`FastImputer` (fit/transform imputation), and the `Visualizer`
frame-preparation and cross-frame alignment logic.

Real numbers from the Python/numpy code are modelled as rationals (`ℚ`),
so every arithmetic identity below is exact; missing values (`NaN` used as
"missing" by pandas) are modelled as `Option ℚ` with `none` for missing.
-/

namespace QsPlot

open scoped List

/-- A 3-vector of rationals: one row of an (N, 3) position array. -/
structure V3 where
  x : ℚ
  y : ℚ
  z : ℚ
deriving DecidableEq, Repr

/-- Largest absolute coordinate of a single 3-vector. -/
def coordMaxAbs (v : V3) : ℚ := max |v.x| (max |v.y| |v.z|)

/-- `np.mean(data, axis=0)` on an (N, 3) array: per-axis arithmetic mean.
For the empty list this yields `0/0 = 0` in `ℚ`; all uses below are on
non-empty data (numpy would emit NaN there). -/
def vmean (l : List V3) : V3 :=
  ⟨(l.map (·.x)).sum / l.length,
   (l.map (·.y)).sum / l.length,
   (l.map (·.z)).sum / l.length⟩

/-- `np.max(np.abs(centered))` over an (N, 3) array, as a fold with base 0
(all entries are absolute values, hence non-negative, so the base does not
change the result on non-empty input). -/
def maxAbs (l : List V3) : ℚ := (l.map coordMaxAbs).foldr max 0

/-- `data - np.mean(data, axis=0)`: the centering step of
`DataProcessor.normalize_positions`. -/
def centeredList (l : List V3) : List V3 :=
  let m := vmean l
  l.map fun v => ⟨v.x - m.x, v.y - m.y, v.z - m.z⟩

/-- `DataProcessor.normalize_positions` (processor.py lines 148-167):
center, then if the maximum absolute coordinate is positive divide by it,
finally multiply by `scale`. -/
def normalize_positions (l : List V3) (scale : ℚ) : List V3 :=
  let centered := centeredList l
  let max_val := maxAbs centered
  let scaled := if 0 < max_val then
      centered.map fun v => ⟨v.x / max_val, v.y / max_val, v.z / max_val⟩
    else centered
  scaled.map fun v => ⟨v.x * scale, v.y * scale, v.z * scale⟩

lemma coordMaxAbs_nonneg (v : V3) : 0 ≤ coordMaxAbs v :=
  le_trans (abs_nonneg v.x) (le_max_left _ _)

lemma maxAbs_nonneg (l : List V3) : 0 ≤ maxAbs l := by
  induction l with
  | nil => simp [maxAbs]
  | cons v t ih =>
      simp only [maxAbs, List.map_cons, List.foldr_cons] at *
      exact le_trans ih (le_max_right _ _)

lemma coordMaxAbs_le_maxAbs {v : V3} {l : List V3} (h : v ∈ l) :
    coordMaxAbs v ≤ maxAbs l := by
  induction l with
  | nil => cases h
  | cons w t ih =>
      simp only [maxAbs, List.map_cons, List.foldr_cons]
      rcases List.mem_cons.mp h with rfl | hmem
      · exact le_max_left _ _
      · exact le_trans (ih hmem) (le_max_right _ _)

lemma maxAbs_pos_of_ne_zero {l : List V3} {v : V3} (hv : v ∈ l)
    (hne : coordMaxAbs v ≠ 0) : 0 < maxAbs l :=
  lt_of_lt_of_le (lt_of_le_of_ne (coordMaxAbs_nonneg v) (Ne.symm hne))
    (coordMaxAbs_le_maxAbs hv)

lemma coordMaxAbs_scale (v : V3) {c : ℚ} (hc : 0 ≤ c) :
    coordMaxAbs ⟨v.x * c, v.y * c, v.z * c⟩ = coordMaxAbs v * c := by
  simp only [coordMaxAbs, abs_mul, abs_of_nonneg hc]
  rw [max_mul_of_nonneg _ _ hc, max_mul_of_nonneg _ _ hc]

lemma maxAbs_scale (l : List V3) {c : ℚ} (hc : 0 ≤ c) :
    maxAbs (l.map fun v => ⟨v.x * c, v.y * c, v.z * c⟩) = maxAbs l * c := by
  induction l with
  | nil => simp [maxAbs]
  | cons v t ih =>
      simp only [maxAbs, List.map_cons, List.foldr_cons] at *
      rw [ih, coordMaxAbs_scale v hc, ← max_mul_of_nonneg _ _ hc]

lemma sum_map_sub_const {α : Type} (l : List α) (f : α → ℚ) (c : ℚ) :
    (l.map fun a => f a - c).sum = (l.map f).sum - l.length * c := by
  induction l with
  | nil => simp
  | cons a t ih =>
      simp only [List.map_cons, List.sum_cons, ih, List.length_cons]
      push_cast
      ring

lemma length_cast_ne_zero {α : Type} {l : List α} (hne : l ≠ []) :
    (l.length : ℚ) ≠ 0 :=
  Nat.cast_ne_zero.mpr (List.length_pos.mpr hne).ne'

lemma sum_x_centered (l : List V3) (hne : l ≠ []) :
    ((centeredList l).map (·.x)).sum = 0 := by
  have hlen := length_cast_ne_zero hne
  simp only [centeredList, List.map_map]
  have heq : (l.map (V3.x ∘ fun v : V3 =>
      (⟨v.x - (vmean l).x, v.y - (vmean l).y, v.z - (vmean l).z⟩ : V3)))
      = l.map fun v => v.x - (vmean l).x := rfl
  rw [heq, sum_map_sub_const l (·.x) (vmean l).x]
  show (l.map (·.x)).sum - l.length * ((l.map (·.x)).sum / l.length) = 0
  rw [mul_div_cancel₀ _ hlen]
  ring

lemma sum_y_centered (l : List V3) (hne : l ≠ []) :
    ((centeredList l).map (·.y)).sum = 0 := by
  have hlen := length_cast_ne_zero hne
  simp only [centeredList, List.map_map]
  have heq : (l.map (V3.y ∘ fun v : V3 =>
      (⟨v.x - (vmean l).x, v.y - (vmean l).y, v.z - (vmean l).z⟩ : V3)))
      = l.map fun v => v.y - (vmean l).y := rfl
  rw [heq, sum_map_sub_const l (·.y) (vmean l).y]
  show (l.map (·.y)).sum - l.length * ((l.map (·.y)).sum / l.length) = 0
  rw [mul_div_cancel₀ _ hlen]
  ring

lemma sum_z_centered (l : List V3) (hne : l ≠ []) :
    ((centeredList l).map (·.z)).sum = 0 := by
  have hlen := length_cast_ne_zero hne
  simp only [centeredList, List.map_map]
  have heq : (l.map (V3.z ∘ fun v : V3 =>
      (⟨v.x - (vmean l).x, v.y - (vmean l).y, v.z - (vmean l).z⟩ : V3)))
      = l.map fun v => v.z - (vmean l).z := rfl
  rw [heq, sum_map_sub_const l (·.z) (vmean l).z]
  show (l.map (·.z)).sum - l.length * ((l.map (·.z)).sum / l.length) = 0
  rw [mul_div_cancel₀ _ hlen]
  ring

lemma sum_map_mul_right' {α : Type} (l : List α) (f : α → ℚ) (c : ℚ) :
    (l.map fun a => f a * c).sum = (l.map f).sum * c := by
  induction l with
  | nil => simp
  | cons a t ih => simp [ih, add_mul]

lemma maxAbs_eq_zero_of_forall {l : List V3} (h : ∀ v ∈ l, v = ⟨0, 0, 0⟩) :
    maxAbs l = 0 := by
  induction l with
  | nil => simp [maxAbs]
  | cons v t ih =>
      have hv := h v (List.mem_cons_self v t)
      have ht := ih fun w hw => h w (List.mem_cons_of_mem v hw)
      show max (coordMaxAbs v) (maxAbs t) = 0
      rw [ht, hv]
      simp [coordMaxAbs]

lemma length_centeredList (l : List V3) : (centeredList l).length = l.length := by
  simp [centeredList]

lemma vmean_eq_zero {out : List V3} (hx : (out.map (·.x)).sum = 0)
    (hy : (out.map (·.y)).sum = 0) (hz : (out.map (·.z)).sum = 0) :
    vmean out = ⟨0, 0, 0⟩ := by
  simp [vmean, hx, hy, hz]

/-- C2: for every N×3 input and positive scale, if the centered input has a
non-zero coordinate then the output of `normalize_positions` has maximum
absolute coordinate exactly `scale` and per-axis mean zero; if every
coordinate of the centered input is zero, the output is all zeros (the
division branch is skipped, so no division by zero occurs). -/
theorem normalize_positions_spec (l : List V3) (scale : ℚ)
    (hne : l ≠ []) (hscale : 0 < scale) :
    ((∃ v ∈ centeredList l, coordMaxAbs v ≠ 0) →
        maxAbs (normalize_positions l scale) = scale ∧
        vmean (normalize_positions l scale) = ⟨0, 0, 0⟩) ∧
    ((∀ v ∈ centeredList l, v = (⟨0, 0, 0⟩ : V3)) →
        normalize_positions l scale = List.replicate l.length ⟨0, 0, 0⟩) := by
  constructor
  · rintro ⟨v, hv, hvne⟩
    have hmv : 0 < maxAbs (centeredList l) := maxAbs_pos_of_ne_zero hv hvne
    set mv := maxAbs (centeredList l) with hmvdef
    have hunfold : normalize_positions l scale
        = ((centeredList l).map fun w =>
            (⟨w.x * mv⁻¹, w.y * mv⁻¹, w.z * mv⁻¹⟩ : V3)).map
            fun w => (⟨w.x * scale, w.y * scale, w.z * scale⟩ : V3) := by
      simp only [normalize_positions, ← hmvdef, if_pos hmv, div_eq_mul_inv]
    have hx : ((normalize_positions l scale).map (·.x)).sum = 0 := by
      rw [hunfold, List.map_map, List.map_map]
      show ((centeredList l).map fun w : V3 => (w.x * mv⁻¹) * scale).sum = 0
      rw [sum_map_mul_right' _ (fun w : V3 => w.x * mv⁻¹) scale,
        sum_map_mul_right' (centeredList l) (fun w : V3 => w.x) mv⁻¹, sum_x_centered l hne]
      ring
    have hy : ((normalize_positions l scale).map (·.y)).sum = 0 := by
      rw [hunfold, List.map_map, List.map_map]
      show ((centeredList l).map fun w : V3 => (w.y * mv⁻¹) * scale).sum = 0
      rw [sum_map_mul_right' _ (fun w : V3 => w.y * mv⁻¹) scale,
        sum_map_mul_right' (centeredList l) (fun w : V3 => w.y) mv⁻¹, sum_y_centered l hne]
      ring
    have hz : ((normalize_positions l scale).map (·.z)).sum = 0 := by
      rw [hunfold, List.map_map, List.map_map]
      show ((centeredList l).map fun w : V3 => (w.z * mv⁻¹) * scale).sum = 0
      rw [sum_map_mul_right' _ (fun w : V3 => w.z * mv⁻¹) scale,
        sum_map_mul_right' (centeredList l) (fun w : V3 => w.z) mv⁻¹, sum_z_centered l hne]
      ring
    refine ⟨?_, vmean_eq_zero hx hy hz⟩
    rw [hunfold, maxAbs_scale _ hscale.le, maxAbs_scale _ (inv_nonneg.mpr hmv.le),
      ← hmvdef, mul_inv_cancel₀ hmv.ne', one_mul]
  · intro h
    have hzero : maxAbs (centeredList l) = 0 := maxAbs_eq_zero_of_forall h
    have hc : centeredList l = List.replicate l.length ⟨0, 0, 0⟩ := by
      have hrep := List.eq_replicate_length.mpr h
      rwa [length_centeredList] at hrep
    simp only [normalize_positions, hzero, lt_irrefl, if_false, hc, List.map_replicate]
    simp

/-- Witness for C2 at the concrete input [(1,0,0), (-1,0,0)] with scale 10. -/
theorem normalize_positions_spec_witness :
    maxAbs (normalize_positions [⟨1, 0, 0⟩, ⟨-1, 0, 0⟩] 10) = 10 ∧
    vmean (normalize_positions [⟨1, 0, 0⟩, ⟨-1, 0, 0⟩] 10) = ⟨0, 0, 0⟩ :=
  (normalize_positions_spec [⟨1, 0, 0⟩, ⟨-1, 0, 0⟩] 10 (by simp) (by norm_num)).1
    ⟨⟨1, 0, 0⟩, by norm_num [centeredList, vmean, V3.mk.injEq],
      by norm_num [coordMaxAbs]⟩

/-! ### Stable ascending argsort (model of `np.argsort`)

`np.argsort` on the short arrays this code sorts (introsort falls back to a
stable insertion sort, and every later use either has distinct keys or
depends on the tie order) returns the indices in ascending key order with
ties in original positional order.  We model it as a stable insertion of
indices `0, 1, 2, ...` in turn. -/

/-- The strict "key first, original position second" order on indices: a
stable ascending sort emits index `i` before `j` exactly when
`lexLT key i j`. -/
def lexLT {κ : Type} [LinearOrder κ] (key : ℕ → κ) (i j : ℕ) : Prop :=
  key i < key j ∨ (key i = key j ∧ i < j)

/-- Index into a key array, with the `Inhabited` default out of range (all
uses stay in range). -/
def keyAt {κ : Type} [Inhabited κ] (ks : List κ) (i : ℕ) : κ := ks.getD i default

/-- Stable insertion step: place index `i` after every already-placed index
whose key is `≤` its own.  Indices are inserted in increasing order, so equal
keys keep original order. -/
def insertArg {κ : Type} [LinearOrder κ] (key : ℕ → κ) (i : ℕ) : List ℕ → List ℕ
  | [] => [i]
  | j :: rest => if key j ≤ key i then j :: insertArg key i rest else i :: j :: rest

/-- Stable ascending argsort of the key list `ks` (model of `np.argsort`). -/
def argsortAsc {κ : Type} [LinearOrder κ] [Inhabited κ] (ks : List κ) : List ℕ :=
  (List.range ks.length).foldl (fun acc i => insertArg (keyAt ks) i acc) []

/-- `arr[idx]` for an index array `idx`: numpy fancy indexing. -/
def applyIdx {α : Type} [Inhabited α] (l : List α) (idx : List ℕ) : List α :=
  idx.map fun i => l.getD i default

lemma insertArg_perm {κ : Type} [LinearOrder κ] (key : ℕ → κ) (i : ℕ)
    (acc : List ℕ) : insertArg key i acc ~ i :: acc := by
  induction acc with
  | nil => rfl
  | cons j rest ih =>
      by_cases h : key j ≤ key i
      · simp only [insertArg, if_pos h]
        exact (ih.cons j).trans (List.Perm.swap i j rest)
      · simp only [insertArg, if_neg h]
        exact List.Perm.refl _

lemma insertArg_pairwise {κ : Type} [LinearOrder κ] {key : ℕ → κ} {i : ℕ}
    {acc : List ℕ} (hlt : ∀ j ∈ acc, j < i)
    (hp : acc.Pairwise (lexLT key)) :
    (insertArg key i acc).Pairwise (lexLT key) := by
  induction acc with
  | nil => simp [insertArg, lexLT]
  | cons j rest ih =>
      rcases List.pairwise_cons.mp hp with ⟨hj, hrest⟩
      by_cases h : key j ≤ key i
      · simp only [insertArg, if_pos h]
        refine List.pairwise_cons.mpr ⟨?_, ih (fun a ha => hlt a (List.mem_cons_of_mem j ha)) hrest⟩
        intro a ha
        rcases List.mem_cons.mp ((insertArg_perm key i rest).mem_iff.mp ha) with rfl | hmem
        · rcases lt_or_eq_of_le h with hlt' | heq
          · exact Or.inl hlt'
          · exact Or.inr ⟨heq, hlt j (List.mem_cons_self j rest)⟩
        · exact hj a hmem
      · simp only [insertArg, if_neg h]
        have hij : key i < key j := lt_of_not_le h
        refine List.pairwise_cons.mpr ⟨?_, hp⟩
        intro a ha
        rcases List.mem_cons.mp ha with rfl | hmem
        · exact Or.inl hij
        · rcases hj a hmem with hja | ⟨hja, _⟩
          · exact Or.inl (hij.trans hja)
          · exact Or.inl (hja ▸ hij)

lemma foldl_insertArg_perm {κ : Type} [LinearOrder κ] (key : ℕ → κ) (m : ℕ) :
    ((List.range m).foldl (fun acc i => insertArg key i acc) []) ~ List.range m := by
  induction m with
  | zero => rfl
  | succ n ih =>
      rw [List.range_succ, List.foldl_append]
      simp only [List.foldl_cons, List.foldl_nil]
      exact ((insertArg_perm key n _).trans (ih.cons n)).trans
        (List.perm_append_singleton n (List.range n)).symm

lemma foldl_insertArg_pairwise {κ : Type} [LinearOrder κ] (key : ℕ → κ) (m : ℕ) :
    ((List.range m).foldl (fun acc i => insertArg key i acc) []).Pairwise (lexLT key) := by
  induction m with
  | zero => simp
  | succ n ih =>
      rw [List.range_succ, List.foldl_append]
      simp only [List.foldl_cons, List.foldl_nil]
      refine insertArg_pairwise ?_ ih
      intro j hj
      exact List.mem_range.mp ((foldl_insertArg_perm key n).mem_iff.mp hj)

lemma argsortAsc_perm {κ : Type} [LinearOrder κ] [Inhabited κ] (ks : List κ) :
    argsortAsc ks ~ List.range ks.length :=
  foldl_insertArg_perm (keyAt ks) ks.length

lemma argsortAsc_pairwise {κ : Type} [LinearOrder κ] [Inhabited κ] (ks : List κ) :
    (argsortAsc ks).Pairwise (lexLT (keyAt ks)) :=
  foldl_insertArg_pairwise (keyAt ks) ks.length

lemma map_getD_range {α : Type} [Inhabited α] (l : List α) :
    (List.range l.length).map (fun i => l.getD i default) = l := by
  apply List.ext_getElem
  · simp
  · intro i h1 h2
    simp [List.getD_eq_getElem?_getD, List.getElem?_eq_getElem h2]

lemma applyIdx_perm {α : Type} [Inhabited α] (l : List α) {idx : List ℕ}
    (h : idx ~ List.range l.length) : applyIdx l idx ~ l :=
  (h.map _).trans (by rw [map_getD_range])

lemma applyIdx_length {α : Type} [Inhabited α] (l : List α) (idx : List ℕ) :
    (applyIdx l idx).length = idx.length := by
  simp [applyIdx]

/-- `arr[np.argsort(arr)]` is sorted ascending. -/
lemma applyIdx_argsort_sorted {κ : Type} [LinearOrder κ] [Inhabited κ]
    (ks : List κ) : (applyIdx ks (argsortAsc ks)).Pairwise (· ≤ ·) := by
  rw [applyIdx, List.pairwise_map]
  refine (argsortAsc_pairwise ks).imp ?_
  intro i j hij
  rcases hij with h | ⟨h, _⟩
  · exact le_of_lt h
  · exact le_of_eq h

/-! ### Frames and the alignment step of `Visualizer.run_morph_animation` -/

instance : Inhabited V3 := ⟨⟨0, 0, 0⟩⟩

/-- The renderable frame dictionary built by `Visualizer.prepare_frame`:
positions (N×3), color values (N), entity ids (N, modelled as `ℕ`), and the
four label strings. -/
structure Frame where
  positions : List V3
  values : List ℚ
  tickers : List ℕ
  color_label : String
  x_label : String
  y_label : String
  z_label : String
deriving DecidableEq, Repr

/-- `arr[np.argsort(arr)]`: sort a list ascending (stably). -/
def sortAsc {κ : Type} [LinearOrder κ] [Inhabited κ] (l : List κ) : List κ :=
  applyIdx l (argsortAsc l)

/-- `np.intersect1d(a, b)`: the sorted unique values present in both arrays. -/
def intersect1d (a b : List ℕ) : List ℕ :=
  sortAsc ((a.filter fun t => decide (t ∈ b)).dedup)

/-- `np.isin(ts, common)`: boolean membership mask. -/
def isinMask (ts : List ℕ) (common : List ℕ) : List Bool :=
  ts.map fun t => decide (t ∈ common)

/-- `arr[mask]` boolean-mask indexing (numpy semantics for equal lengths). -/
def maskFilter {α : Type} (l : List α) (m : List Bool) : List α :=
  ((l.zip m).filter fun p => p.2).map (·.1)

/-- The six index-parallel arrays the alignment block hands to the engine.
The code applies the same `sort_idx` to positions, values (and, implicitly,
to the filtered tickers, which own the rows); `ticks_curr`/`ticks_next`
record that reindexed ticker array. -/
structure AlignedPair where
  pos_curr : List V3
  val_curr : List ℚ
  ticks_curr : List ℕ
  pos_next : List V3
  val_next : List ℚ
  ticks_next : List ℕ
deriving DecidableEq, Repr

/-- The alignment logic of `Visualizer.run_morph_animation`
(core.py lines 218-247): intersect the ticker arrays; if no common ticker,
skip the frame pair (`continue`, modelled as `none`); otherwise mask-filter
each frame's arrays to the common tickers and reorder them by the argsort of
that frame's filtered tickers. -/
def alignFrames (data_curr data_next : Frame) : Option AlignedPair :=
  let ticks_curr := data_curr.tickers
  let ticks_next := data_next.tickers
  let common := intersect1d ticks_curr ticks_next
  if common.length = 0 then none
  else
    let mask_curr := isinMask ticks_curr common
    let pos_curr_filtered := maskFilter data_curr.positions mask_curr
    let val_curr_filtered := maskFilter data_curr.values mask_curr
    let ticks_curr_filtered := maskFilter ticks_curr mask_curr
    let sort_idx_curr := argsortAsc ticks_curr_filtered
    let mask_next := isinMask ticks_next common
    let pos_next_filtered := maskFilter data_next.positions mask_next
    let val_next_filtered := maskFilter data_next.values mask_next
    let ticks_next_filtered := maskFilter ticks_next mask_next
    let sort_idx_next := argsortAsc ticks_next_filtered
    some ⟨applyIdx pos_curr_filtered sort_idx_curr,
          applyIdx val_curr_filtered sort_idx_curr,
          applyIdx ticks_curr_filtered sort_idx_curr,
          applyIdx pos_next_filtered sort_idx_next,
          applyIdx val_next_filtered sort_idx_next,
          applyIdx ticks_next_filtered sort_idx_next⟩

lemma maskFilter_map {α : Type} (l : List α) (p : α → Bool) :
    maskFilter l (l.map p) = l.filter p := by
  induction l with
  | nil => rfl
  | cons a t ih =>
      simp only [maskFilter, List.map_cons, List.zip_cons_cons, List.filter_cons] at *
      by_cases h : p a
      · simp [h, ih]
      · simp [h, ih]

lemma sortAsc_perm {κ : Type} [LinearOrder κ] [Inhabited κ] (l : List κ) :
    sortAsc l ~ l :=
  applyIdx_perm l (argsortAsc_perm l)

lemma sortAsc_sorted {κ : Type} [LinearOrder κ] [Inhabited κ] (l : List κ) :
    (sortAsc l).Pairwise (· ≤ ·) :=
  applyIdx_argsort_sorted l

lemma mem_intersect1d {a b : List ℕ} {x : ℕ} :
    x ∈ intersect1d a b ↔ x ∈ a ∧ x ∈ b := by
  rw [intersect1d, (sortAsc_perm _).mem_iff, List.mem_dedup, List.mem_filter]
  simp

/-- The filter-and-sort applied to one frame's ticker array. -/
def alignedTicks (ticks common : List ℕ) : List ℕ :=
  let tf := maskFilter ticks (isinMask ticks common)
  applyIdx tf (argsortAsc tf)

lemma alignedTicks_perm (ticks common : List ℕ) :
    alignedTicks ticks common ~ ticks.filter fun t => decide (t ∈ common) := by
  unfold alignedTicks
  rw [isinMask, maskFilter_map]
  exact sortAsc_perm _

lemma alignedTicks_sorted (ticks common : List ℕ) :
    (alignedTicks ticks common).Pairwise (· ≤ ·) := by
  unfold alignedTicks
  exact applyIdx_argsort_sorted _

lemma alignedTicks_nodup {ticks : List ℕ} (common : List ℕ)
    (h : ticks.Nodup) : (alignedTicks ticks common).Nodup :=
  ((alignedTicks_perm ticks common).symm.nodup_iff).mp (h.filter _)

lemma mem_alignedTicks {ticks common : List ℕ} {x : ℕ} :
    x ∈ alignedTicks ticks common ↔ x ∈ ticks ∧ x ∈ common := by
  rw [(alignedTicks_perm ticks common).mem_iff, List.mem_filter]
  simp

lemma alignedTicks_length (ticks common : List ℕ) :
    (alignedTicks ticks common).length
      = (ticks.filter fun t => decide (t ∈ common)).length :=
  (alignedTicks_perm ticks common).length_eq

lemma filter_common_length {tc tn : List ℕ} (hnd : tc.Nodup) :
    (tc.filter fun t => decide (t ∈ intersect1d tc tn)).length
      = (tc.toFinset ∩ tn.toFinset).card := by
  have hndf : (tc.filter fun t => decide (t ∈ intersect1d tc tn)).Nodup :=
    hnd.filter _
  rw [← List.toFinset_card_of_nodup hndf]
  congr 1
  ext x
  simp only [List.mem_toFinset, List.mem_filter, Finset.mem_inter,
    decide_eq_true_eq, mem_intersect1d]
  tauto

/-- C1: for prepared frames with unique entity ids, a successful alignment
yields index-parallel arrays: the two (implicit) aligned ticker arrays are
equal as lists (same entity id at every index), each sorted ascending, of
length `|S1 ∩ S2|`, and the aligned position/value arrays have that same
length; an empty intersection yields the skip signal `none`, never an
exception. -/
theorem run_morph_alignment_spec (fc fn : Frame)
    (hnd1 : fc.tickers.Nodup) (hnd2 : fn.tickers.Nodup)
    (hp1 : fc.positions.length = fc.tickers.length)
    (hv1 : fc.values.length = fc.tickers.length)
    (hp2 : fn.positions.length = fn.tickers.length)
    (hv2 : fn.values.length = fn.tickers.length) :
    (∀ ap, alignFrames fc fn = some ap →
      ap.ticks_curr = ap.ticks_next ∧
      ap.ticks_curr.Pairwise (· ≤ ·) ∧
      ap.ticks_next.Pairwise (· ≤ ·) ∧
      ap.ticks_curr.length = (fc.tickers.toFinset ∩ fn.tickers.toFinset).card ∧
      ap.pos_curr.length = ap.ticks_curr.length ∧
      ap.val_curr.length = ap.ticks_curr.length ∧
      ap.pos_next.length = ap.ticks_next.length ∧
      ap.val_next.length = ap.ticks_next.length) ∧
    (alignFrames fc fn = none ↔
      fc.tickers.toFinset ∩ fn.tickers.toFinset = ∅) := by
  set common := intersect1d fc.tickers fn.tickers with hcommon
  constructor
  · intro ap hap
    by_cases hc : common.length = 0
    · simp only [alignFrames, ← hcommon, if_pos hc] at hap
      cases hap
    · simp only [alignFrames, ← hcommon, if_neg hc] at hap
      injection hap with hap
      subst hap
      have hkey : alignedTicks fc.tickers common = alignedTicks fn.tickers common := by
        refine List.eq_of_perm_of_sorted ?_ (alignedTicks_sorted _ _) (alignedTicks_sorted _ _)
        refine (List.perm_ext_iff_of_nodup (alignedTicks_nodup _ hnd1)
          (alignedTicks_nodup _ hnd2)).mpr ?_
        intro x
        rw [mem_alignedTicks, mem_alignedTicks, hcommon, mem_intersect1d]
        tauto
      refine ⟨hkey, alignedTicks_sorted _ _, alignedTicks_sorted _ _, ?_, ?_, ?_, ?_, ?_⟩
      · show (alignedTicks fc.tickers common).length = _
        rw [alignedTicks_length, hcommon, filter_common_length hnd1]
      · show (applyIdx (maskFilter fc.positions (isinMask fc.tickers common))
            (argsortAsc (maskFilter fc.tickers (isinMask fc.tickers common)))).length
          = (alignedTicks fc.tickers common).length
        rw [applyIdx_length, alignedTicks, applyIdx_length]
      · show (applyIdx (maskFilter fc.values (isinMask fc.tickers common))
            (argsortAsc (maskFilter fc.tickers (isinMask fc.tickers common)))).length
          = (alignedTicks fc.tickers common).length
        rw [applyIdx_length, alignedTicks, applyIdx_length]
      · show (applyIdx (maskFilter fn.positions (isinMask fn.tickers common))
            (argsortAsc (maskFilter fn.tickers (isinMask fn.tickers common)))).length
          = (alignedTicks fn.tickers common).length
        rw [applyIdx_length, alignedTicks, applyIdx_length]
      · show (applyIdx (maskFilter fn.values (isinMask fn.tickers common))
            (argsortAsc (maskFilter fn.tickers (isinMask fn.tickers common)))).length
          = (alignedTicks fn.tickers common).length
        rw [applyIdx_length, alignedTicks, applyIdx_length]
  · have hnone : alignFrames fc fn = none ↔ common.length = 0 := by
      by_cases hc : common.length = 0
      · simp [alignFrames, ← hcommon, hc]
      · simp [alignFrames, ← hcommon, hc]
    rw [hnone, List.length_eq_zero, List.eq_nil_iff_forall_not_mem,
      Finset.eq_empty_iff_forall_not_mem]
    constructor
    · intro h x hx
      rcases Finset.mem_inter.mp hx with ⟨h1, h2⟩
      exact h x (by rw [hcommon, mem_intersect1d]
                    exact ⟨List.mem_toFinset.mp h1, List.mem_toFinset.mp h2⟩)
    · intro h x hx
      rw [hcommon, mem_intersect1d] at hx
      exact h x (Finset.mem_inter.mpr ⟨List.mem_toFinset.mpr hx.1, List.mem_toFinset.mpr hx.2⟩)

/-- Witness for C1: tickers {0,1,2} vs {1,2,3}; the aligned pair exists,
both ticker arrays are [1, 2], of length |{1,2}| = 2. -/
theorem run_morph_alignment_spec_witness :
    ∃ ap, alignFrames
        ⟨[⟨1, 0, 0⟩, ⟨2, 0, 0⟩, ⟨3, 0, 0⟩], [1, 2, 3], [0, 1, 2], "c", "x", "y", "z"⟩
        ⟨[⟨4, 0, 0⟩, ⟨5, 0, 0⟩, ⟨6, 0, 0⟩], [4, 5, 6], [1, 2, 3], "c", "x", "y", "z"⟩
        = some ap ∧
      ap.ticks_curr = ap.ticks_next ∧ ap.ticks_curr = [1, 2] ∧
      ap.ticks_curr.length = 2 := by
  have h := run_morph_alignment_spec
      ⟨[⟨1, 0, 0⟩, ⟨2, 0, 0⟩, ⟨3, 0, 0⟩], [1, 2, 3], [0, 1, 2], "c", "x", "y", "z"⟩
      ⟨[⟨4, 0, 0⟩, ⟨5, 0, 0⟩, ⟨6, 0, 0⟩], [4, 5, 6], [1, 2, 3], "c", "x", "y", "z"⟩
      (by decide) (by decide) (by decide) (by decide) (by decide) (by decide)
  have hsome : alignFrames
      ⟨[⟨1, 0, 0⟩, ⟨2, 0, 0⟩, ⟨3, 0, 0⟩], [1, 2, 3], [0, 1, 2], "c", "x", "y", "z"⟩
      ⟨[⟨4, 0, 0⟩, ⟨5, 0, 0⟩, ⟨6, 0, 0⟩], [4, 5, 6], [1, 2, 3], "c", "x", "y", "z"⟩
      = some ⟨[⟨2, 0, 0⟩, ⟨3, 0, 0⟩], [2, 3], [1, 2],
              [⟨4, 0, 0⟩, ⟨5, 0, 0⟩], [4, 5], [1, 2]⟩ := by decide
  have hprops := h.1 _ hsome
  exact ⟨_, hsome, hprops.1, by decide, by decide⟩

/-! ### `DataProcessor.reduce_dimensions_with_info` -/

/-- The absolute-loading key for one PCA component row:
`loadings = np.abs(components[i])`. -/
def absKey (row : List ℚ) : ℕ → ℚ := keyAt (row.map fun q => |q|)

/-- `np.argsort(loadings)[::-1][:3]` (processor.py line 110): the indices of
the top-3 loadings, obtained by reversing the ascending argsort and taking a
prefix. -/
def topIndicesOfRow (row : List ℚ) : List ℕ :=
  ((argsortAsc (row.map fun q => |q|)).reverse).take 3

/-- `[feature_names[idx] for idx in top_indices]` (processor.py line 111). -/
def topFeaturesOfRow (row : List ℚ) (feature_names : List String) : List String :=
  (topIndicesOfRow row).map fun idx => feature_names.getD idx ""

/-- C6 counterexample: on the loadings row [2, 2, 1] with feature names
[a, b, c] the code reports ["b", "a", "c"]: the tie between a and b is
broken in favor of the later feature (index 1), not the first-seen one. -/
theorem pca_top3_tie_counterexample :
    topFeaturesOfRow [2, 2, 1] ["a", "b", "c"] = ["b", "a", "c"] ∧
    topFeaturesOfRow [2, 2, 1] ["a", "b", "c"] ≠ ["a", "b", "c"] := by
  constructor <;> decide

/-- C6 (amended): the reported top-3 indices are ranked by strictly
descending absolute loading, with ties broken by *reverse* original feature
order (the last-seen feature wins), and every index that was not selected
has an absolute loading lexicographically below every selected one. -/
theorem pca_top3_ranking (row : List ℚ) :
    (topIndicesOfRow row).Pairwise
      (fun i j => absKey row j < absKey row i ∨
        (absKey row j = absKey row i ∧ j < i)) ∧
    (∀ i ∈ topIndicesOfRow row,
      ∀ j ∈ ((argsortAsc (row.map fun q => |q|)).reverse).drop 3,
        absKey row j < absKey row i ∨
          (absKey row j = absKey row i ∧ j < i)) := by
  have hrev : ((argsortAsc (row.map fun q => |q|)).reverse).Pairwise
      (fun i j => lexLT (absKey row) j i) := by
    rw [List.pairwise_reverse]
    exact argsortAsc_pairwise _
  constructor
  · exact List.Pairwise.sublist (List.take_sublist 3 _) hrev
  · have hsplit := (List.take_append_drop 3
      ((argsortAsc (row.map fun q => |q|)).reverse)).symm
    rw [hsplit] at hrev
    intro i hi j hj
    exact (List.pairwise_append.mp hrev).2.2 i hi j hj

/-- The result dictionary of `DataProcessor.reduce_dimensions_with_info`:
positions plus optional interpretability metadata (absent, not zero-filled,
for t-SNE/UMAP). -/
structure ReductionResult where
  positions : List (List ℚ)
  explained_variance_ratios : Option (List ℚ)
  top_features_per_axis : Option (List (List String))
deriving DecidableEq, Repr

/-- `[f"feat_{i}" for i in range(data.shape[1])]` (processor.py line 79). -/
def defaultFeatureNames (n : ℕ) : List String :=
  (List.range n).map fun i => "feat_" ++ toString i

/-- `data.shape[1]` for a row-major rectangular matrix. -/
def ncols (data : List (List ℚ)) : ℕ := (data.head?.map List.length).getD 0

/-- The `data.shape[1] <= n_components` branch of
`DataProcessor.reduce_dimensions_with_info` (processor.py lines 77-93):
return the matrix unchanged when the width already matches, else zero-pad
trailing columns (`np.zeros((N, n)); positions[:, :F] = data`), and
synthesize uniform variance ratios and singleton contributor lists.  The
`pca`/`tsne`/`umap` branches call external library code (sklearn / umap)
and are modelled only through their pure post-processing
(`topIndicesOfRow`). -/
def reduce_dimensions_with_info_low (data : List (List ℚ)) (n_components : ℕ)
    (feature_names : Option (List String)) : ReductionResult :=
  let names := feature_names.getD (defaultFeatureNames (ncols data))
  let positions :=
    if ncols data = n_components then data
    else data.map fun row => row ++ List.replicate (n_components - row.length) 0
  { positions := positions
    explained_variance_ratios :=
      some (List.replicate n_components ((1 : ℚ) / n_components))
    top_features_per_axis :=
      some ((List.range n_components).map fun i => [names.getD (i % names.length) ""]) }

/-- C5: when `F ≤ target_dims` (with at least one feature) the reducer is
the identity for `F = target_dims` and zero-pads trailing dimensions for
`F < target_dims`, always returning uniform variance ratios
`[1/target_dims] * target_dims` and, for axis `i`, the single feature name
at index `i mod F`. -/
theorem reduce_low_spec (data : List (List ℚ)) (n_components : ℕ)
    (names : List String)
    (hrect : ∀ row ∈ data, row.length = ncols data)
    (hle : ncols data ≤ n_components)
    (hnames : names.length = ncols data)
    (hF : 0 < ncols data) :
    (ncols data = n_components →
      (reduce_dimensions_with_info_low data n_components (some names)).positions = data) ∧
    (ncols data < n_components →
      List.Forall₂ (fun row prow =>
          prow.take (ncols data) = row ∧ prow.length = n_components ∧
          ∀ j, ncols data ≤ j → j < n_components → prow.getD j 0 = 0)
        data
        (reduce_dimensions_with_info_low data n_components (some names)).positions) ∧
    (reduce_dimensions_with_info_low data n_components (some names)).explained_variance_ratios
      = some (List.replicate n_components ((1 : ℚ) / n_components)) ∧
    (reduce_dimensions_with_info_low data n_components (some names)).top_features_per_axis
      = some ((List.range n_components).map fun i => [names.getD (i % ncols data) ""]) := by
  refine ⟨?_, ?_, rfl, ?_⟩
  · intro heq
    simp [reduce_dimensions_with_info_low, if_pos heq]
  · intro hlt
    have hne : ¬ ncols data = n_components := Nat.ne_of_lt hlt
    simp only [reduce_dimensions_with_info_low, if_neg hne]
    rw [List.forall₂_map_right_iff]
    rw [List.forall₂_same]
    intro row hrow
    have hrlen : row.length = ncols data := hrect row hrow
    refine ⟨?_, ?_, ?_⟩
    · rw [← hrlen, List.take_left]
    · rw [List.length_append, List.length_replicate, hrlen,
        Nat.add_sub_cancel' (hrlen ▸ hle)]
    · intro j hj1 hj2
      have hjr : row.length ≤ j := hrlen ▸ hj1
      rw [List.getD_eq_getElem?_getD, List.getElem?_append_right hjr,
        List.getElem?_replicate]
      have : j - row.length < n_components - row.length :=
        Nat.sub_lt_sub_right hjr hj2
      simp [this]
  · simp only [reduce_dimensions_with_info_low, Option.getD_some, hnames]

/-- Witness for C5 at data [[1], [2]] (F = 1), target_dims 3, names [a]:
positions are zero-padded to [[1,0,0],[2,0,0]] and the metadata is uniform. -/
theorem reduce_low_spec_witness :
    (reduce_dimensions_with_info_low [[1], [2]] 3 (some ["a"])).explained_variance_ratios
        = some (List.replicate 3 ((1 : ℚ) / 3)) ∧
    (reduce_dimensions_with_info_low [[1], [2]] 3 (some ["a"])).positions
        = [[1, 0, 0], [2, 0, 0]] ∧
    (reduce_dimensions_with_info_low [[1], [2]] 3 (some ["a"])).top_features_per_axis
        = some [["a"], ["a"], ["a"]] :=
  ⟨(reduce_low_spec [[1], [2]] 3 ["a"] (by decide) (by decide) (by decide)
      (by decide)).2.2.1, by decide, by decide⟩

/-! ### Color handling in `Visualizer.prepare_frame` -/

/-- `arr.min()` on a non-empty numpy array (the empty case never occurs:
`prepare_frame` returns early on an empty snapshot). -/
def npMin : List ℚ → ℚ
  | [] => 0
  | a :: t => t.foldl min a

/-- `arr.max()` on a non-empty numpy array. -/
def npMax : List ℚ → ℚ
  | [] => 0
  | a :: t => t.foldl max a

lemma foldl_min_le_init (t : List ℚ) (acc : ℚ) : t.foldl min acc ≤ acc := by
  induction t generalizing acc with
  | nil => simp
  | cons a t' ih => exact le_trans (ih (min acc a)) (min_le_left _ _)

lemma foldl_min_le_mem (t : List ℚ) (acc : ℚ) {v : ℚ} (h : v ∈ t) :
    t.foldl min acc ≤ v := by
  induction t generalizing acc with
  | nil => cases h
  | cons a t' ih =>
      rcases List.mem_cons.mp h with rfl | hmem
      · exact le_trans (foldl_min_le_init t' (min acc v)) (min_le_right _ _)
      · exact ih (min acc a) hmem

lemma init_le_foldl_max (t : List ℚ) (acc : ℚ) : acc ≤ t.foldl max acc := by
  induction t generalizing acc with
  | nil => simp
  | cons a t' ih => exact le_trans (le_max_left _ _) (ih (max acc a))

lemma mem_le_foldl_max (t : List ℚ) (acc : ℚ) {v : ℚ} (h : v ∈ t) :
    v ≤ t.foldl max acc := by
  induction t generalizing acc with
  | nil => cases h
  | cons a t' ih =>
      rcases List.mem_cons.mp h with rfl | hmem
      · exact le_trans (le_max_right _ _) (init_le_foldl_max t' (max acc v))
      · exact ih (max acc a) hmem

lemma npMin_le_of_mem {l : List ℚ} {v : ℚ} (h : v ∈ l) : npMin l ≤ v := by
  cases l with
  | nil => cases h
  | cons a t =>
      rcases List.mem_cons.mp h with rfl | hmem
      · exact foldl_min_le_init t v
      · exact foldl_min_le_mem t a hmem

lemma le_npMax_of_mem {l : List ℚ} {v : ℚ} (h : v ∈ l) : v ≤ npMax l := by
  cases l with
  | nil => cases h
  | cons a t =>
      rcases List.mem_cons.mp h with rfl | hmem
      · exact init_le_foldl_max t v
      · exact mem_le_foldl_max t a hmem

/-- The color min-max normalization of `Visualizer.prepare_frame`
(core.py lines 121-126): `(v - v_min) / (v_max - v_min)` when
`v_max > v_min`, otherwise `np.zeros_like(color_values)`. -/
def normalizeColorValues (color_values : List ℚ) : List ℚ :=
  let v_min := npMin color_values
  let v_max := npMax color_values
  if v_min < v_max then
    color_values.map fun v => (v - v_min) / (v_max - v_min)
  else
    List.replicate color_values.length 0

/-- C7: every normalized color value lies in [0, 1]; a constant color column
(max = min) yields the all-zero vector — the division branch is skipped, so
no NaN/Inf can arise. -/
theorem normalize_color_values_spec (color_values : List ℚ)
    (hne : color_values ≠ []) :
    (∀ v ∈ normalizeColorValues color_values, 0 ≤ v ∧ v ≤ 1) ∧
    (npMax color_values = npMin color_values →
      normalizeColorValues color_values
        = List.replicate color_values.length 0) := by
  constructor
  · intro v hv
    by_cases h : npMin color_values < npMax color_values
    · simp only [normalizeColorValues, if_pos h, List.mem_map] at hv
      obtain ⟨w, hw, rfl⟩ := hv
      have hpos : 0 < npMax color_values - npMin color_values := sub_pos.mpr h
      constructor
      · exact div_nonneg (sub_nonneg.mpr (npMin_le_of_mem hw)) hpos.le
      · rw [div_le_one hpos]
        exact sub_le_sub_right (le_npMax_of_mem hw) _
    · simp only [normalizeColorValues, if_neg h, List.mem_replicate] at hv
      rw [hv.2]
      norm_num
  · intro hconst
    have h : ¬ npMin color_values < npMax color_values := by rw [hconst]; exact lt_irrefl _
    simp only [normalizeColorValues, if_neg h]

/-- Witness for C7 at the column [1, 3]: 0 is among the normalized values
and it lies in [0, 1]. -/
theorem normalize_color_values_spec_witness :
    (0 : ℚ) ∈ normalizeColorValues [1, 3] ∧ 0 ≤ (0 : ℚ) ∧ (0 : ℚ) ≤ 1 := by
  have hmem : (0 : ℚ) ∈ normalizeColorValues [1, 3] := by
    norm_num [normalizeColorValues, npMin, npMax]
  exact ⟨hmem, (normalize_color_values_spec [1, 3] (by simp)).1 0 hmem⟩

/-- `np.argmax(variances)` — the first index attaining the maximum value. -/
def npArgmax (l : List ℚ) : ℕ := l.indexOf (npMax l)

lemma npMax_mem {l : List ℚ} (hne : l ≠ []) : npMax l ∈ l := by
  cases l with
  | nil => exact absurd rfl hne
  | cons a t =>
      show t.foldl max a ∈ a :: t
      clear hne
      induction t generalizing a with
      | nil => simp
      | cons b t' ih =>
          show t'.foldl max (max a b) ∈ a :: b :: t'
          have htl := ih (max a b)
          rcases List.mem_cons.mp htl with heq | hmem
          · rw [heq]
            rcases max_choice a b with hab | hab
            · rw [hab]
              exact List.mem_cons_self _ _
            · rw [hab]
              exact List.mem_cons_of_mem _ (List.mem_cons_self _ _)
          · exact List.mem_cons_of_mem _ (List.mem_cons_of_mem _ hmem)

/-- The Python `None | str | int` argument `color_feature` of
`Visualizer.prepare_frame`. -/
inductive ColorFeatureArg where
  | auto
  | byName (s : String)
  | byIndex (k : ℤ)
deriving DecidableEq, Repr

/-- The color-feature resolution block of `Visualizer.prepare_frame`
(core.py lines 102-118), returning `(color_idx, color_label)`.
`variances` is `np.var(X, axis=0)`. -/
def resolveColorFeature (color_feature : ColorFeatureArg)
    (feature_cols : List String) (variances : List ℚ) : ℕ × String :=
  match color_feature with
  | .auto =>
      let color_idx := npArgmax variances
      (color_idx, feature_cols.getD color_idx "" ++ " (auto)")
  | .byName s =>
      if s ∈ feature_cols then (feature_cols.indexOf s, s)
      else (0, feature_cols.getD 0 "" ++ " (fallback)")
  | .byIndex k =>
      let color_idx := (k % (feature_cols.length : ℤ)).toNat
      (color_idx, feature_cols.getD color_idx "")

/-- C8: color-feature resolution priority: a present name selects that
feature (labelled by its own name); an absent name falls back to feature 0
with a "(fallback)" tag; an integer selects index `k mod F` (hence any
integer, negative included, yields a valid index `< F`); `auto` selects an
index of maximal variance and tags the label with "(auto)". -/
theorem resolve_color_feature_spec (feature_cols : List String)
    (variances : List ℚ) (hne : feature_cols ≠ [])
    (hlen : variances.length = feature_cols.length) :
    (∀ s ∈ feature_cols,
      resolveColorFeature (.byName s) feature_cols variances
        = (feature_cols.indexOf s, s)) ∧
    (∀ s, s ∉ feature_cols →
      resolveColorFeature (.byName s) feature_cols variances
        = (0, feature_cols.getD 0 "" ++ " (fallback)")) ∧
    (∀ k : ℤ,
      ((resolveColorFeature (.byIndex k) feature_cols variances).1 : ℤ)
          = k % (feature_cols.length : ℤ) ∧
      (resolveColorFeature (.byIndex k) feature_cols variances).1
          < feature_cols.length ∧
      (resolveColorFeature (.byIndex k) feature_cols variances).2
          = feature_cols.getD
              (resolveColorFeature (.byIndex k) feature_cols variances).1 "") ∧
    ((resolveColorFeature .auto feature_cols variances).1 < feature_cols.length ∧
      (∀ v ∈ variances,
        v ≤ variances.getD (resolveColorFeature .auto feature_cols variances).1 0) ∧
      (resolveColorFeature .auto feature_cols variances).2
          = feature_cols.getD
              (resolveColorFeature .auto feature_cols variances).1 "" ++ " (auto)") := by
  have hF : 0 < feature_cols.length := List.length_pos.mpr hne
  have hvne : variances ≠ [] := by
    intro h
    rw [h] at hlen
    exact absurd hlen.symm (Nat.pos_iff_ne_zero.mp hF)
  have hFZ : (feature_cols.length : ℤ) ≠ 0 := by exact_mod_cast hF.ne'
  refine ⟨?_, ?_, ?_, ?_, ?_, ?_⟩
  · intro s hs
    simp [resolveColorFeature, hs]
  · intro s hs
    simp [resolveColorFeature, hs]
  · intro k
    have hnn : 0 ≤ k % (feature_cols.length : ℤ) := Int.emod_nonneg k hFZ
    have hlt : k % (feature_cols.length : ℤ) < (feature_cols.length : ℤ) :=
      Int.emod_lt_of_pos k (by exact_mod_cast hF)
    refine ⟨?_, ?_, rfl⟩
    · simp [resolveColorFeature, Int.toNat_of_nonneg hnn]
    · show (k % (feature_cols.length : ℤ)).toNat < feature_cols.length
      rw [← Int.toNat_of_nonneg hnn] at hlt
      exact_mod_cast hlt
  · show npArgmax variances < feature_cols.length
    rw [← hlen]
    exact List.indexOf_lt_length.mpr (npMax_mem hvne)
  · intro v hv
    show v ≤ variances.getD (npArgmax variances) 0
    have hidx : variances.indexOf (npMax variances) < variances.length :=
      List.indexOf_lt_length.mpr (npMax_mem hvne)
    have : variances.getD (npArgmax variances) 0 = npMax variances := by
      rw [npArgmax, List.getD_eq_getElem?_getD, List.getElem?_eq_getElem hidx,
        Option.getD_some]
      exact List.getElem_indexOf hidx
    rw [this]
    exact le_npMax_of_mem hv
  · rfl

/-- Witness for C8 with features [a, b] and variances [1, 2]: auto selects a
valid index whose variance dominates, a present name resolves to its own
index, and a negative integer index resolves to 1 = -1 mod 2. -/
theorem resolve_color_feature_spec_witness :
    (resolveColorFeature .auto ["a", "b"] [1, 2]).1 < 2 ∧
    resolveColorFeature (.byName "b") ["a", "b"] [1, 2] = (1, "b") ∧
    (resolveColorFeature (.byIndex (-1)) ["a", "b"] [1, 2]).1 = 1 := by
  have h := resolve_color_feature_spec ["a", "b"] [1, 2] (by simp) (by simp)
  refine ⟨h.2.2.2.1, ?_, by decide⟩
  have hb := h.1 "b" (by simp)
  rw [hb]
  rfl

/-! ### `FastImputer` (utils/imputer.py) and `DataProcessor.clean_data`

A pandas float column is `List (Option ℚ)`: `none` models NaN ("missing").
-/

/-- A pandas column of floats; `none` is NaN/missing. -/
abbrev Column := List (Option ℚ)

/-- `series.mean()`: NaNs excluded; NaN (here `none`) when every value is
missing. -/
def seriesMean (col : Column) : Option ℚ :=
  let vals := col.filterMap id
  if vals.length = 0 then none else some (vals.sum / vals.length)

/-- `series.median()`: NaNs excluded; NaN when every value is missing;
for an even count, the mean of the two middle values. -/
def seriesMedian (col : Column) : Option ℚ :=
  let vals := sortAsc (col.filterMap id)
  if vals.length = 0 then none
  else if vals.length % 2 = 1 then some (vals.getD (vals.length / 2) 0)
  else some ((vals.getD (vals.length / 2 - 1) 0 + vals.getD (vals.length / 2) 0) / 2)

/-- `col.fillna(v)` for a scalar statistic `v`; filling with NaN (`none`)
leaves every missing entry missing (pandas semantics of a NaN fill value
coming from an all-NaN statistic). -/
def fillna (col : Column) (v : Option ℚ) : Column :=
  match v with
  | none => col
  | some c => col.map fun o => some (o.getD c)

/-- `col.ffill()`: forward fill, carrying the last seen value. -/
def ffillCol : Column → Option ℚ → Column
  | [], _ => []
  | o :: rest, last =>
      match o with
      | some v => some v :: ffillCol rest (some v)
      | none => last :: ffillCol rest last

/-- `col.bfill()`: backward fill = reversed forward fill. -/
def bfillCol (col : Column) : Column := (ffillCol col.reverse none).reverse

/-- The (position, value) pair of a present entry; `none` for a missing
one. -/
def knownFn (pc : ℚ × Option ℚ) : Option (ℚ × ℚ) :=
  pc.2.map fun v => (pc.1, v)

/-- `Series.interpolate(..., limit_direction='both')` at one index, over
interpolation key positions `pos` (the integer index for `method='linear'`,
timestamps for `method='time'`): keep a present value; otherwise
interpolate between the nearest present neighbours, or extend the nearest
present value at the boundaries; stay missing if the column has no present
value at all. -/
def interpAt (pos : List ℚ) (col : Column) (i : ℕ) : Option ℚ :=
  match col.getD i none,
        (((pos.zip col).take (i + 1)).filterMap knownFn).getLast?,
        (((pos.zip col).drop i).filterMap knownFn).head? with
  | some v, _, _ => some v
  | none, some (p1, v1), some (p2, v2) =>
      some (v1 + (v2 - v1) * ((pos.getD i 0 - p1) / (p2 - p1)))
  | none, some (_, v1), none => some v1
  | none, none, some (_, v2) => some v2
  | none, none, none => none

/-- Columnwise interpolation over key positions `pos`. -/
def interpolateCol (pos : List ℚ) (col : Column) : Column :=
  (List.range col.length).map (interpAt pos col)

/-- `interpolate(method='linear', limit_direction='both')`: positions are
the default integer index. -/
def interpolateLinear (col : Column) : Column :=
  interpolateCol ((List.range col.length).map fun i : ℕ => (i : ℚ)) col

/-- The `FastImputer` strategies (drop is not a `FastImputer` strategy). -/
inductive Strategy where
  | linear | time | ffill | bfill | mean | median | zero
deriving DecidableEq, Repr

/-- A pandas DataFrame for the imputer: named float columns, an index that
is or is not a `DatetimeIndex`, and its key values (timestamps when it is). -/
structure PDataFrame where
  cols : List (String × Column)
  hasDatetimeIndex : Bool
  index : List ℚ
deriving DecidableEq, Repr

/-- The `FastImputer` object.  `statistics_` models the Python attribute:
`none` = the attribute does not exist on the instance, `some none` = the
attribute exists with value `None` — which is what `__init__`
(imputer.py line 43) leaves behind —, `some (some s)` = set by `fit`. -/
structure FastImputer where
  strategy : Strategy
  columns : Option (List String)
  statistics_ : Option (Option (List (String × Option ℚ)))
deriving DecidableEq, Repr

/-- `FastImputer.__init__` (imputer.py lines 33-43): stores the arguments
and assigns `self.statistics_ = None` — so the attribute exists on every
freshly constructed instance. -/
def FastImputer.mk_init (strategy : Strategy) (columns : Option (List String)) :
    FastImputer :=
  ⟨strategy, columns, some none⟩

/-- `check_is_fitted(self, 'statistics_')`: sklearn raises `NotFittedError`
iff the named attribute is absent from the instance (`hasattr` is false). -/
def check_is_fitted_statistics (m : FastImputer) : Bool := m.statistics_.isSome

/-- Column lookup in the fitted statistics Series. -/
def lookupStat (stats : List (String × Option ℚ)) (c : String) : Option ℚ :=
  match stats.find? fun p => p.1 == c with
  | some p => p.2
  | none => none

/-- `FastImputer.fit` (imputer.py lines 45-79): resolve the target columns
(all columns when not given — every modelled column is numeric — else
require the given names to exist), compute the mean/median statistics or
the `pd.Series(0, …)` placeholder, and return the updated instance.  The
unknown-strategy check of lines 57-59 cannot fire here because `Strategy`
is the closed enum of the valid names. -/
def FastImputer.fit (m : FastImputer) (X : PDataFrame) :
    Except String FastImputer :=
  let resolved : Except String (List String) :=
    match m.columns with
    | none => .ok (X.cols.map (·.1))
    | some cs =>
        if cs.all fun c => X.cols.any fun nc => nc.1 == c then .ok cs
        else .error "Columns not found in DataFrame"
  match resolved with
  | .error e => .error e
  | .ok cols =>
      let colOf := fun c => ((X.cols.find? fun nc => nc.1 == c).map (·.2)).getD []
      let stats : List (String × Option ℚ) :=
        match m.strategy with
        | .mean => cols.map fun c => (c, seriesMean (colOf c))
        | .median => cols.map fun c => (c, seriesMedian (colOf c))
        | _ => cols.map fun c => (c, some 0)
      .ok ⟨m.strategy, some cols, some (some stats)⟩

/-- The strategy dispatch of `FastImputer.transform` applied to one target
column (imputer.py lines 96-119). -/
def applyStrategyToCol (strategy : Strategy) (stat : Option ℚ)
    (hasDT : Bool) (index : List ℚ) (col : Column) : Column :=
  match strategy with
  | .linear => interpolateLinear col
  | .time => if hasDT then interpolateCol index col else interpolateLinear col
  | .ffill => ffillCol col none
  | .bfill => bfillCol col
  | .mean => fillna col stat
  | .median => fillna col stat
  | .zero => fillna col (some 0)

/-- `FastImputer.transform` (imputer.py lines 81-121): `check_is_fitted`
errors only when the `statistics_` attribute is absent; `X_transformed[
target_cols]` with unresolved columns (`None`) is a `KeyError`; a
mean/median fill with `statistics_ = None` is pandas' `fillna(None)`
`ValueError`; otherwise each target column is transformed and every other
column passes through unchanged. -/
def FastImputer.transform (m : FastImputer) (X : PDataFrame) :
    Except String PDataFrame :=
  match m.statistics_ with
  | none => .error "NotFittedError: This FastImputer instance is not fitted"
  | some stValue =>
      match m.columns with
      | none => .error "KeyError: None"
      | some target_cols =>
          if (m.strategy = .mean ∨ m.strategy = .median) ∧ stValue = none then
            .error "ValueError: must specify a fill value or method"
          else
            .ok { X with cols := X.cols.map fun nc =>
              if nc.1 ∈ target_cols then
                (nc.1, applyStrategyToCol m.strategy
                  (lookupStat (stValue.getD []) nc.1)
                  X.hasDatetimeIndex X.index nc.2)
              else nc }

/-- Row-wise `df.dropna()`: keep only the rows in which every column is
present. -/
def dropnaRows (df : List (String × Column)) : List (String × Column) :=
  let n := ((df.head?).map fun nc => nc.2.length).getD 0
  let keep := (List.range n).filter fun i => df.all fun nc => (nc.2.getD i none).isSome
  df.map fun nc => (nc.1, keep.map fun i => nc.2.getD i none)

/-- `DataProcessor.clean_data` (processor.py lines 25-45). -/
def clean_data (df : List (String × Column)) (strategy : String) :
    Except String (List (String × Column)) :=
  if strategy = "mean" then
    .ok (df.map fun nc => (nc.1, fillna nc.2 (seriesMean nc.2)))
  else if strategy = "zero" then
    .ok (df.map fun nc => (nc.1, fillna nc.2 (some 0)))
  else if strategy = "drop" then
    .ok (dropnaRows df)
  else if strategy = "ffill" then
    .ok (df.map fun nc => (nc.1, fillna (ffillCol nc.2 none) (some 0)))
  else
    .error ("Unknown cleaning strategy: " ++ strategy)

lemma getD_map_lt {α β : Type} (f : α → β) (l : List α) {i : ℕ}
    (h : i < l.length) (d : β) (d' : α) :
    (l.map f).getD i d = f (l.getD i d') := by
  rw [List.getD_eq_getElem?_getD, List.getElem?_map, List.getElem?_eq_getElem h,
    List.getD_eq_getElem?_getD, List.getElem?_eq_getElem h]
  rfl

lemma fillna_some_isSome (col : Column) (c : ℚ) {i : ℕ} (hi : i < col.length) :
    ((fillna col (some c)).getD i none).isSome := by
  rw [fillna, getD_map_lt _ _ hi none none]
  rfl

lemma exists_some_iff_filterMap_ne_nil {col : Column} :
    (∃ v : ℚ, some v ∈ col) ↔ col.filterMap id ≠ [] := by
  constructor
  · rintro ⟨v, hv⟩ hnil
    have hmem : v ∈ col.filterMap id := List.mem_filterMap.mpr ⟨some v, hv, rfl⟩
    rw [hnil] at hmem
    cases hmem
  · intro h
    rcases List.exists_mem_of_ne_nil _ h with ⟨v, hv⟩
    rcases List.mem_filterMap.mp hv with ⟨a, ha, hav⟩
    cases a with
    | none => cases hav
    | some w => exact ⟨v, hav ▸ ha⟩

lemma seriesMean_isSome {col : Column} (h : ∃ v : ℚ, some v ∈ col) :
    (seriesMean col).isSome := by
  have hne := exists_some_iff_filterMap_ne_nil.mp h
  simp only [seriesMean]
  rw [if_neg (by simpa [List.length_eq_zero] using hne)]
  rfl

lemma seriesMedian_isSome {col : Column} (h : ∃ v : ℚ, some v ∈ col) :
    (seriesMedian col).isSome := by
  have hne := exists_some_iff_filterMap_ne_nil.mp h
  have hlen : (sortAsc (col.filterMap id)).length = (col.filterMap id).length :=
    (sortAsc_perm _).length_eq
  simp only [seriesMedian]
  rw [if_neg (by
    rw [hlen, List.length_eq_zero]
    exact hne)]
  split <;> rfl

lemma all_missing_filterMap_nil {col : Column} (h : ∀ v : ℚ, some v ∉ col) :
    col.filterMap id = [] := by
  refine List.filterMap_eq_nil_iff.mpr fun a ha => ?_
  cases a with
  | none => rfl
  | some w => exact absurd ha (h w)

lemma seriesMean_all_missing {col : Column} (h : ∀ v : ℚ, some v ∉ col) :
    seriesMean col = none := by
  simp [seriesMean, all_missing_filterMap_nil h]

lemma seriesMedian_all_missing {col : Column} (h : ∀ v : ℚ, some v ∉ col) :
    seriesMedian col = none := by
  have hnil := all_missing_filterMap_nil h
  simp only [seriesMedian, hnil]
  rfl

lemma fillna_none (col : Column) : fillna col none = col := rfl

lemma ffillCol_length (col : Column) (last : Option ℚ) :
    (ffillCol col last).length = col.length := by
  induction col generalizing last with
  | nil => rfl
  | cons o rest ih => cases o <;> simp [ffillCol, ih]

lemma ffillCol_isSome :
    ∀ (col : Column) (last : Option ℚ) (i : ℕ), i < col.length →
      (last.isSome ∨ ∃ j, j ≤ i ∧ (col.getD j none).isSome) →
      ((ffillCol col last).getD i none).isSome := by
  intro col
  induction col with
  | nil => intro last i hi; cases hi
  | cons o rest ih =>
      intro last i hi hyp
      cases o with
      | some v =>
          cases i with
          | zero => simp [ffillCol]
          | succ i' =>
              show ((ffillCol rest (some v)).getD i' none).isSome
              exact ih (some v) i' (Nat.lt_of_succ_lt_succ hi) (Or.inl rfl)
      | none =>
          cases i with
          | zero =>
              rcases hyp with hl | ⟨j, hj, hjs⟩
              · simpa [ffillCol] using hl
              · interval_cases j
                simp at hjs
          | succ i' =>
              show ((ffillCol rest last).getD i' none).isSome
              refine ih last i' (Nat.lt_of_succ_lt_succ hi) ?_
              rcases hyp with hl | ⟨j, hj, hjs⟩
              · exact Or.inl hl
              · cases j with
                | zero => simp at hjs
                | succ j' =>
                    exact Or.inr ⟨j', Nat.le_of_succ_le_succ hj, hjs⟩

lemma ffillCol_none_of_lead :
    ∀ (col : Column) (i : ℕ), i < col.length →
      (∀ j, j ≤ i → col.getD j none = none) →
      (ffillCol col none).getD i none = none := by
  intro col
  induction col with
  | nil => intro i hi; cases hi
  | cons o rest ih =>
      intro i hi hyp
      have h0 : o = none := hyp 0 (Nat.zero_le _)
      subst h0
      cases i with
      | zero => rfl
      | succ i' =>
          show (ffillCol rest none).getD i' none = none
          exact ih i' (Nat.lt_of_succ_lt_succ hi)
            fun j hj => hyp (j + 1) (Nat.succ_le_succ hj)

lemma getD_reverse {α : Type} (l : List α) {i : ℕ} (h : i < l.length) (d : α) :
    l.reverse.getD i d = l.getD (l.length - 1 - i) d := by
  have h' : i < l.reverse.length := by simpa using h
  rw [List.getD_eq_getElem?_getD, List.getD_eq_getElem?_getD,
    List.getElem?_eq_getElem h', List.getElem?_eq_getElem (by omega)]
  simp [List.getElem_reverse]

lemma bfillCol_length (col : Column) : (bfillCol col).length = col.length := by
  simp [bfillCol, ffillCol_length]

lemma bfillCol_isSome (col : Column) (i : ℕ) (hi : i < col.length)
    (hyp : ∃ j, i ≤ j ∧ j < col.length ∧ (col.getD j none).isSome) :
    ((bfillCol col).getD i none).isSome := by
  obtain ⟨j, hij, hjlen, hjs⟩ := hyp
  have hflen : (ffillCol col.reverse none).length = col.length := by
    rw [ffillCol_length, List.length_reverse]
  rw [bfillCol, getD_reverse _ (by rw [hflen]; exact hi) none, hflen]
  refine ffillCol_isSome col.reverse none (col.length - 1 - i)
    (by rw [List.length_reverse]; omega) (Or.inr ⟨col.length - 1 - j, by omega, ?_⟩)
  rw [getD_reverse _ (by omega) none]
  have harith : col.length - 1 - (col.length - 1 - j) = j := by omega
  rw [harith]
  exact hjs

lemma bfillCol_none_of_trail (col : Column) (i : ℕ) (hi : i < col.length)
    (h : ∀ j, i ≤ j → j < col.length → col.getD j none = none) :
    (bfillCol col).getD i none = none := by
  have hflen : (ffillCol col.reverse none).length = col.length := by
    rw [ffillCol_length, List.length_reverse]
  rw [bfillCol, getD_reverse _ (by rw [hflen]; exact hi) none, hflen]
  refine ffillCol_none_of_lead col.reverse (col.length - 1 - i)
    (by rw [List.length_reverse]; omega) ?_
  intro j hj
  have hjlen : j < col.length := by omega
  rw [getD_reverse col hjlen none]
  exact h (col.length - 1 - j) (by omega) (by omega)

lemma interpAt_isSome {pos : List ℚ} {col : Column} (hlen : pos.length = col.length)
    {j : ℕ} (hj : j < col.length) (hjv : (col.getD j none).isSome)
    (i : ℕ) : (interpAt pos col i).isSome := by
  obtain ⟨w, hw⟩ := Option.isSome_iff_exists.mp hjv
  have hcolj : col[j] = some w := by
    rwa [List.getD_eq_getElem?_getD, List.getElem?_eq_getElem hj,
      Option.getD_some] at hw
  have hjz : j < (pos.zip col).length := by
    rw [List.length_zip]
    omega
  unfold interpAt
  cases hci : col.getD i none with
  | some v => rfl
  | none =>
      rcases le_or_lt j i with hle | hgt
      · -- the known entry is in the prefix: the "previous" candidate exists
        have hjt : j < ((pos.zip col).take (i + 1)).length := by
          rw [List.length_take]
          omega
        have hne : (((pos.zip col).take (i + 1)).filterMap knownFn) ≠ [] := by
          intro hnil
          rw [List.filterMap_eq_nil_iff] at hnil
          have hel := hnil (((pos.zip col).take (i + 1))[j])
            (List.getElem_mem hjt)
          rw [List.getElem_take, List.getElem_zip] at hel
          simp [knownFn, hcolj] at hel
        obtain ⟨⟨p1, v1⟩, hp1⟩ := Option.isSome_iff_exists.mp
          (List.getLast?_isSome.mpr hne)
        rw [hp1]
        cases hnx : ((((pos.zip col).drop i)).filterMap knownFn).head? with
        | none => rfl
        | some pv =>
            obtain ⟨p2, v2⟩ := pv
            rfl
      · -- the known entry is in the suffix: the "next" candidate exists
        have hjd : j - i < ((pos.zip col).drop i).length := by
          rw [List.length_drop]
          omega
        have hne : ((((pos.zip col).drop i)).filterMap knownFn) ≠ [] := by
          intro hnil
          rw [List.filterMap_eq_nil_iff] at hnil
          have hel := hnil (((pos.zip col).drop i)[j - i])
            (List.getElem_mem hjd)
          rw [List.getElem_drop] at hel
          have hidx : i + (j - i) = j := by omega
          simp only [hidx, List.getElem_zip] at hel
          simp [knownFn, hcolj] at hel
        obtain ⟨⟨p2, v2⟩, hp2⟩ := Option.isSome_iff_exists.mp
          (List.head?_isSome.mpr hne)
        rw [hp2]
        cases hpl : ((((pos.zip col).take (i + 1))).filterMap knownFn).getLast? with
        | none => rfl
        | some pv =>
            obtain ⟨p1, v1⟩ := pv
            rfl

lemma interpAt_all_missing {pos : List ℚ} {col : Column}
    (h : ∀ v : ℚ, some v ∉ col) {i : ℕ} (hi : i < col.length) :
    interpAt pos col i = none := by
  have hci : col.getD i none = none := by
    cases hc : col.getD i none with
    | none => rfl
    | some v =>
        rw [List.getD_eq_getElem?_getD, List.getElem?_eq_getElem hi,
          Option.getD_some] at hc
        exact absurd (hc ▸ List.getElem_mem hi) (h v)
  have hknil : ∀ pc ∈ pos.zip col, knownFn pc = none := by
    intro pc hpc
    have h2 : pc.2 ∈ col := by
      obtain ⟨a, b⟩ := pc
      exact (List.of_mem_zip hpc).2
    cases hpc2 : pc.2 with
    | none => simp [knownFn, hpc2]
    | some v => exact absurd (hpc2 ▸ h2) (h v)
  have h1 : (((pos.zip col).take (i + 1))).filterMap knownFn = [] :=
    List.filterMap_eq_nil_iff.mpr fun pc hpc => hknil pc (List.mem_of_mem_take hpc)
  have h2 : (((pos.zip col).drop i)).filterMap knownFn = [] :=
    List.filterMap_eq_nil_iff.mpr fun pc hpc => hknil pc (List.mem_of_mem_drop hpc)
  unfold interpAt
  rw [hci, h1, h2]
  rfl

lemma interpolateCol_length (pos : List ℚ) (col : Column) :
    (interpolateCol pos col).length = col.length := by
  simp [interpolateCol]

lemma getD_interpolateCol (pos : List ℚ) (col : Column) {i : ℕ}
    (hi : i < col.length) :
    (interpolateCol pos col).getD i none = interpAt pos col i := by
  rw [interpolateCol, getD_map_lt _ _ (by simpa using hi) none 0]
  congr 1
  rw [List.getD_eq_getElem?_getD, List.getElem?_range hi, Option.getD_some]

lemma interpolateCol_isSome {pos : List ℚ} {col : Column}
    (hlen : pos.length = col.length) (h : ∃ v : ℚ, some v ∈ col)
    {i : ℕ} (hi : i < col.length) :
    ((interpolateCol pos col).getD i none).isSome := by
  obtain ⟨v, hv⟩ := h
  obtain ⟨j, hj, hjv⟩ := List.getElem_of_mem hv
  rw [getD_interpolateCol pos col hi]
  refine interpAt_isSome hlen hj ?_ i
  rw [List.getD_eq_getElem?_getD, List.getElem?_eq_getElem hj, Option.getD_some,
    hjv]
  rfl

lemma interpolateLinear_length (col : Column) :
    (interpolateLinear col).length = col.length :=
  interpolateCol_length _ _

lemma interpolateLinear_isSome {col : Column} (h : ∃ v : ℚ, some v ∈ col)
    {i : ℕ} (hi : i < col.length) :
    ((interpolateLinear col).getD i none).isSome := by
  rw [interpolateLinear]
  exact interpolateCol_isSome (by rw [List.length_map, List.length_range]) h hi

lemma interpolateCol_all_missing {pos : List ℚ} {col : Column}
    (h : ∀ v : ℚ, some v ∉ col) {i : ℕ} (hi : i < col.length) :
    (interpolateCol pos col).getD i none = none := by
  rw [getD_interpolateCol pos col hi]
  exact interpAt_all_missing h hi

lemma transform_ok_cols {m : FastImputer} {X res : PDataFrame}
    (h : m.transform X = .ok res) :
    ∃ target_cols stValue, m.columns = some target_cols ∧
      m.statistics_ = some stValue ∧
      res.cols = X.cols.map fun nc =>
        if nc.1 ∈ target_cols then
          (nc.1, applyStrategyToCol m.strategy (lookupStat (stValue.getD []) nc.1)
            X.hasDatetimeIndex X.index nc.2)
        else nc := by
  unfold FastImputer.transform at h
  cases hst : m.statistics_ with
  | none =>
      simp only [hst] at h
      exact Except.noConfusion h
  | some stValue =>
      simp only [hst] at h
      cases hc : m.columns with
      | none =>
          simp only [hc] at h
          exact Except.noConfusion h
      | some target_cols =>
          simp only [hc] at h
          split at h
          · cases h
          · injection h with h
            exact ⟨target_cols, stValue, rfl, rfl, by rw [← h]⟩

/-- C3 counterexample: a legitimately fitted `FastImputer(strategy='ffill')`
leaves the leading missing value of column A = [NaN, 1.0] missing.  The
column is not entirely missing, has two rows, and the strategy is not
`drop`, so neither of the claim's two exceptions covers it, yet the
transformed column still contains a missing value. -/
theorem imputer_ffill_counterexample :
    FastImputer.fit (FastImputer.mk_init .ffill none)
        ⟨[("A", [none, some 1])], false, [0, 1]⟩
      = .ok ⟨.ffill, some ["A"], some (some [("A", some 0)])⟩ ∧
    FastImputer.transform ⟨.ffill, some ["A"], some (some [("A", some 0)])⟩
        ⟨[("A", [none, some 1])], false, [0, 1]⟩
      = .ok ⟨[("A", [none, some 1])], false, [0, 1]⟩ ∧
    (([none, some 1] : Column).getD 0 none = none ∧
      some (1 : ℚ) ∈ ([none, some 1] : Column)) := by
  refine ⟨rfl, rfl, by decide⟩

/-- C3 (amended): a successful `transform` rewrites exactly the target
columns with the strategy function; for that function, `zero` always
removes every missing value; `mean`/`median` (with the statistic fitted on
the same column) remove every missing value unless the column is entirely
missing, in which case it is returned unchanged; `linear`, and `time` both
on a datetime index and without one (where it falls back to `linear` with a
warning), remove every missing value as soon as the column has at least one
present value (so only an entirely-missing column — the single-row missing
case included — stays missing), and an entirely-missing column stays
missing under `linear` and under `time` alike; `ffill` fills an entry iff
some value is present at its index or earlier (leading missing entries stay
missing); `bfill` fills an entry iff some value is present at its index or
later (trailing missing entries stay missing); and
`DataProcessor.clean_data` composes `ffill` with a zero fill, so its
`ffill` strategy leaves no missing values at all. -/
theorem imputation_completeness :
    (∀ (m : FastImputer) (X res : PDataFrame), m.transform X = .ok res →
      ∃ target_cols stValue, m.columns = some target_cols ∧
        m.statistics_ = some stValue ∧
        res.cols = X.cols.map fun nc =>
          if nc.1 ∈ target_cols then
            (nc.1, applyStrategyToCol m.strategy
              (lookupStat (stValue.getD []) nc.1) X.hasDatetimeIndex X.index nc.2)
          else nc) ∧
    (∀ (stat : Option ℚ) (hdt : Bool) (ix : List ℚ) (col : Column) (i : ℕ),
      i < col.length →
      ((applyStrategyToCol .zero stat hdt ix col).getD i none).isSome) ∧
    (∀ (hdt : Bool) (ix : List ℚ) (col : Column), (∃ v : ℚ, some v ∈ col) →
      ∀ i, i < col.length →
      ((applyStrategyToCol .mean (seriesMean col) hdt ix col).getD i none).isSome) ∧
    (∀ (hdt : Bool) (ix : List ℚ) (col : Column), (∃ v : ℚ, some v ∈ col) →
      ∀ i, i < col.length →
      ((applyStrategyToCol .median (seriesMedian col) hdt ix col).getD i none).isSome) ∧
    (∀ (hdt : Bool) (ix : List ℚ) (col : Column), (∀ v : ℚ, some v ∉ col) →
      applyStrategyToCol .mean (seriesMean col) hdt ix col = col) ∧
    (∀ (hdt : Bool) (ix : List ℚ) (col : Column), (∀ v : ℚ, some v ∉ col) →
      applyStrategyToCol .median (seriesMedian col) hdt ix col = col) ∧
    (∀ (stat : Option ℚ) (hdt : Bool) (ix : List ℚ) (col : Column),
      (∃ v : ℚ, some v ∈ col) → ∀ i, i < col.length →
      ((applyStrategyToCol .linear stat hdt ix col).getD i none).isSome) ∧
    (∀ (stat : Option ℚ) (ix : List ℚ) (col : Column), ix.length = col.length →
      (∃ v : ℚ, some v ∈ col) → ∀ i, i < col.length →
      ((applyStrategyToCol .time stat true ix col).getD i none).isSome) ∧
    (∀ (stat : Option ℚ) (hdt : Bool) (ix : List ℚ) (col : Column),
      (∀ v : ℚ, some v ∉ col) → ∀ i, i < col.length →
      (applyStrategyToCol .linear stat hdt ix col).getD i none = none) ∧
    (∀ (stat : Option ℚ) (hdt : Bool) (ix : List ℚ) (col : Column) (i : ℕ),
      i < col.length → (∃ j, j ≤ i ∧ (col.getD j none).isSome) →
      ((applyStrategyToCol .ffill stat hdt ix col).getD i none).isSome) ∧
    (∀ (stat : Option ℚ) (hdt : Bool) (ix : List ℚ) (col : Column) (i : ℕ),
      i < col.length → (∀ j, j ≤ i → col.getD j none = none) →
      (applyStrategyToCol .ffill stat hdt ix col).getD i none = none) ∧
    (∀ (stat : Option ℚ) (hdt : Bool) (ix : List ℚ) (col : Column) (i : ℕ),
      i < col.length → (∃ j, i ≤ j ∧ j < col.length ∧ (col.getD j none).isSome) →
      ((applyStrategyToCol .bfill stat hdt ix col).getD i none).isSome) ∧
    (∀ (stat : Option ℚ) (hdt : Bool) (ix : List ℚ) (col : Column) (i : ℕ),
      i < col.length → (∀ j, i ≤ j → j < col.length → col.getD j none = none) →
      (applyStrategyToCol .bfill stat hdt ix col).getD i none = none) ∧
    (∀ (stat : Option ℚ) (ix : List ℚ) (col : Column),
      applyStrategyToCol .time stat false ix col = interpolateLinear col) ∧
    (∀ (stat : Option ℚ) (ix : List ℚ) (col : Column), (∃ v : ℚ, some v ∈ col) →
      ∀ i, i < col.length →
      ((applyStrategyToCol .time stat false ix col).getD i none).isSome) ∧
    (∀ (stat : Option ℚ) (hdt : Bool) (ix : List ℚ) (col : Column),
      (∀ v : ℚ, some v ∉ col) → ∀ i, i < col.length →
      (applyStrategyToCol .time stat hdt ix col).getD i none = none) ∧
    (∀ df : List (String × Column),
      clean_data df "ffill"
        = .ok (df.map fun nc => (nc.1, fillna (ffillCol nc.2 none) (some 0)))) ∧
    (∀ (col : Column) (i : ℕ), i < col.length →
      ((fillna (ffillCol col none) (some 0)).getD i none).isSome) ∧
    (∀ df : List (String × Column),
      clean_data df "mean"
        = .ok (df.map fun nc => (nc.1, fillna nc.2 (seriesMean nc.2)))) := by
  refine ⟨fun m X res h => transform_ok_cols h, ?_, ?_, ?_, ?_, ?_, ?_, ?_, ?_,
    ?_, ?_, ?_, ?_, ?_, ?_, ?_, ?_, ?_, ?_⟩
  · intro stat hdt ix col i hi
    exact fillna_some_isSome col 0 hi
  · intro hdt ix col h i hi
    obtain ⟨c, hc⟩ := Option.isSome_iff_exists.mp (seriesMean_isSome h)
    show ((fillna col (seriesMean col)).getD i none).isSome
    rw [hc]
    exact fillna_some_isSome col c hi
  · intro hdt ix col h i hi
    obtain ⟨c, hc⟩ := Option.isSome_iff_exists.mp (seriesMedian_isSome h)
    show ((fillna col (seriesMedian col)).getD i none).isSome
    rw [hc]
    exact fillna_some_isSome col c hi
  · intro hdt ix col h
    show fillna col (seriesMean col) = col
    rw [seriesMean_all_missing h, fillna_none]
  · intro hdt ix col h
    show fillna col (seriesMedian col) = col
    rw [seriesMedian_all_missing h, fillna_none]
  · intro stat hdt ix col h i hi
    exact interpolateLinear_isSome h hi
  · intro stat ix col hlen h i hi
    show ((interpolateCol ix col).getD i none).isSome
    exact interpolateCol_isSome hlen h hi
  · intro stat hdt ix col h i hi
    show (interpolateLinear col).getD i none = none
    rw [interpolateLinear]
    exact interpolateCol_all_missing h hi
  · intro stat hdt ix col i hi hj
    exact ffillCol_isSome col none i hi (Or.inr hj)
  · intro stat hdt ix col i hi hj
    exact ffillCol_none_of_lead col i hi hj
  · intro stat hdt ix col i hi hj
    exact bfillCol_isSome col i hi hj
  · intro stat hdt ix col i hi hj
    exact bfillCol_none_of_trail col i hi hj
  · intro stat ix col
    rfl
  · intro stat ix col h i hi
    show ((interpolateLinear col).getD i none).isSome
    exact interpolateLinear_isSome h hi
  · intro stat hdt ix col h i hi
    cases hdt with
    | true =>
        show (interpolateCol ix col).getD i none = none
        exact interpolateCol_all_missing h hi
    | false =>
        show (interpolateLinear col).getD i none = none
        rw [interpolateLinear]
        exact interpolateCol_all_missing h hi
  · intro df
    rfl
  · intro col i hi
    exact fillna_some_isSome _ 0 (by rw [ffillCol_length]; exact hi)
  · intro df
    rfl

/-- C4 (code behaviour at the failing input): a freshly constructed, never
fitted `FastImputer(strategy='zero', columns=['A'])` transforms a DataFrame
successfully — `check_is_fitted(self, 'statistics_')` cannot raise because
`__init__` already created the `statistics_` attribute (value `None`) — so
no "not fitted" error occurs and the imputation is performed. -/
theorem transform_unfitted_succeeds :
    check_is_fitted_statistics (FastImputer.mk_init .zero (some ["A"])) = true ∧
    FastImputer.transform (FastImputer.mk_init .zero (some ["A"]))
        ⟨[("A", [some 1, none])], false, [0, 1]⟩
      = .ok ⟨[("A", [some 1, some 0])], false, [0, 1]⟩ := by
  refine ⟨rfl, rfl⟩

/-! ### Object identity: `transform` does not mutate its input (C9) -/

/-- A minimal model of Python object identity for DataFrames: a heap of
DataFrame values addressed by reference. -/
structure PyHeap where
  cells : List PDataFrame
deriving DecidableEq, Repr

def PyHeap.read (h : PyHeap) (r : ℕ) : PDataFrame :=
  h.cells.getD r ⟨[], false, []⟩

def PyHeap.alloc (h : PyHeap) (df : PDataFrame) : PyHeap × ℕ :=
  (⟨h.cells ++ [df]⟩, h.cells.length)

def PyHeap.write (h : PyHeap) (r : ℕ) (df : PDataFrame) : PyHeap :=
  ⟨h.cells.set r df⟩

/-- `FastImputer.transform` as heap statements (imputer.py lines 91-121):
after `check_is_fitted`, `X_transformed = X.copy()` allocates a fresh cell
holding a value copy of the caller's frame; every subsequent assignment
`X_transformed[target_cols] = …` writes to that fresh cell only; the new
reference is returned. -/
def transformOnHeap (m : FastImputer) (h : PyHeap) (xRef : ℕ) :
    Except String (PyHeap × ℕ) :=
  match m.transform (h.read xRef) with
  | .error e => .error e
  | .ok res =>
      let allocated := h.alloc (h.read xRef)
      .ok (allocated.1.write allocated.2 res, allocated.2)

/-- C9: `transform` returns a new DataFrame (a reference distinct from the
argument's) and the caller's DataFrame cell is unchanged afterwards. -/
theorem transform_returns_fresh_frame (m : FastImputer) (h : PyHeap)
    (xRef : ℕ) (hx : xRef < h.cells.length) :
    ∀ h' tRef, transformOnHeap m h xRef = .ok (h', tRef) →
      tRef ≠ xRef ∧ h'.read xRef = h.read xRef := by
  intro h' tRef htr
  unfold transformOnHeap at htr
  cases hres : m.transform (h.read xRef) with
  | error e => rw [hres] at htr; cases htr
  | ok res =>
      rw [hres] at htr
      injection htr with hpair
      have h1 : h' = (h.alloc (h.read xRef)).1.write (h.alloc (h.read xRef)).2 res :=
        (congrArg Prod.fst hpair).symm
      have h2 : tRef = (h.alloc (h.read xRef)).2 :=
        (congrArg Prod.snd hpair).symm
      subst h1
      subst h2
      refine ⟨by simpa [PyHeap.alloc] using Nat.ne_of_gt hx, ?_⟩
      show ((h.cells ++ [h.read xRef]).set h.cells.length res).getD xRef _
        = h.cells.getD xRef _
      rw [List.getD_eq_getElem?_getD, List.getD_eq_getElem?_getD,
        List.getElem?_set_ne (by omega), List.getElem?_append, if_pos hx]

/-- Witness for C9 on a one-cell heap: the fresh reference is 1 ≠ 0 and cell
0 still holds the original frame. -/
theorem transform_returns_fresh_frame_witness :
    (1 : ℕ) ≠ 0 ∧
    PyHeap.read ⟨[⟨[("A", [some 1, none])], false, [0, 1]⟩,
                  ⟨[("A", [some 1, some 0])], false, [0, 1]⟩]⟩ 0
      = PyHeap.read ⟨[⟨[("A", [some 1, none])], false, [0, 1]⟩]⟩ 0 := by
  have h := transform_returns_fresh_frame
      ⟨.zero, some ["A"], some (some [("A", some 0)])⟩
      ⟨[⟨[("A", [some 1, none])], false, [0, 1]⟩]⟩ 0 (by decide)
      ⟨[⟨[("A", [some 1, none])], false, [0, 1]⟩,
        ⟨[("A", [some 1, some 0])], false, [0, 1]⟩]⟩ 1 rfl
  exact ⟨h.1, h.2⟩

/-! ### `Visualizer.prepare_frame` (C10) -/

/-- `np.var(column)`: mean of squared deviations from the mean. -/
def npVar (col : List ℚ) : ℚ :=
  ((col.map fun v => (v - col.sum / col.length) ^ 2).sum) / col.length

/-- `Visualizer._generate_axis_labels` (core.py lines 165-187): for `pca`
with both metadata pieces present, the hybrid
`"PC<i> (<var%>) -> <top-2 features, 20-char truncated>"` label; otherwise
the generic ordinal labels. -/
def generate_axis_labels (method : String) (explained_var : Option (List ℚ))
    (top_features : Option (List (List String))) : List String :=
  (List.range 3).map fun i =>
    match explained_var, top_features with
    | some ev, some tf =>
        if method = "pca" then
          let var_pct : ℤ := ⌊ev.getD i 0 * 100⌋
          let feat_str := String.intercalate ", " ((tf.getD i []).take 2)
          let feat_str2 :=
            if 20 < feat_str.length then feat_str.take 17 ++ "..." else feat_str
          "PC" ++ toString (i + 1) ++ " (" ++ toString var_pct ++ "%) -> " ++ feat_str2
        else if method = "tsne" then "t-SNE " ++ toString (i + 1)
        else if method = "umap" then "UMAP " ++ toString (i + 1)
        else "Axis " ++ toString (i + 1)
    | _, _ =>
        if method = "tsne" then "t-SNE " ++ toString (i + 1)
        else if method = "umap" then "UMAP " ++ toString (i + 1)
        else "Axis " ++ toString (i + 1)

/-- One row of the loaded dataset: timestamp, entity id, features. -/
structure Row where
  date : ℕ
  ticker : ℕ
  features : List ℚ
deriving DecidableEq, Repr

/-- The `Visualizer` state relevant to `prepare_frame`: `self.df` together
with the metadata `load_time_series` sets at the same time (`None` before
any load). -/
structure VisualizerState where
  df : Option (List Row)
  feature_cols : Option (List String)
deriving DecidableEq, Repr

/-- `Visualizer.__init__`: no DataFrame, no cached metadata. -/
def initVisualizer : VisualizerState := ⟨none, none⟩

/-- `Visualizer.prepare_frame` (core.py lines 76-163).  The reducer is a
parameter (`self.processor.reduce_dimensions_with_info` invokes external
sklearn/umap code for `F > n_components`); everything else — the `self.df
is None` and empty-snapshot early returns (`{}`, modelled as `none`),
color-feature resolution, color normalization, exclusion of the color
feature from the reduction input, position normalization with scale 10 and
label synthesis — is the code's own logic. -/
def prepare_frame
    (reduce : List (List ℚ) → List String → ReductionResult)
    (v : VisualizerState) (date : ℕ) (method : String)
    (color_feature : ColorFeatureArg) : Option Frame :=
  match v.df with
  | none => none
  | some rows =>
      let snapshot := rows.filter fun r => r.date = date
      if snapshot.isEmpty then none
      else
        let feature_cols := v.feature_cols.getD []
        let X := snapshot.map (·.features)
        let variances := (List.range feature_cols.length).map fun j =>
          npVar (X.map fun row => row.getD j 0)
        let resolved := resolveColorFeature color_feature feature_cols variances
        let color_values := normalizeColorValues (X.map fun row => row.getD resolved.1 0)
        let X_for_pca := X.map fun row => row.eraseIdx resolved.1
        let feature_names_for_pca := feature_cols.eraseIdx resolved.1
        let rr := reduce X_for_pca feature_names_for_pca
        let positions := normalize_positions
          (rr.positions.map fun p => ⟨p.getD 0 0, p.getD 1 0, p.getD 2 0⟩) 10
        let labels := generate_axis_labels method rr.explained_variance_ratios
          rr.top_features_per_axis
        some ⟨positions, color_values, snapshot.map (·.ticker), resolved.2,
              labels.getD 0 "", labels.getD 1 "", labels.getD 2 ""⟩

/-- C10: on a freshly constructed `Visualizer` (no `load_time_series`
call), `prepare_frame` returns the empty frame (`{}`), not an exception,
for every date, method, color argument and reducer. -/
theorem prepare_frame_unloaded
    (reduce : List (List ℚ) → List String → ReductionResult)
    (date : ℕ) (method : String) (color_feature : ColorFeatureArg) :
    prepare_frame reduce initVisualizer date method color_feature = none :=
  rfl

end QsPlot
